import Mathlib

/-!
Shallow embedding of the vupdate tool (src/main.rs): a report parser built
on the regex capture(nonspace+) space+ capture(nonspace+) space+ minus
greater space+ capture(nonspace+), an installed-package extractor built on
the regex capture(nonspace+) minus lazy(nonspace+), an HTTP fetch wrapper,
and the reconciling main that filters and renders two update maps.
Machine strings are Lean Strings; Rust String order is bytewise
lexicographic on UTF-8, which coincides with lexicographic order on unicode
scalar values, modelled below by charsLe.
-/

/-- Unicode whitespace class matched by the whitespace escape of the Rust
regex crate (UTS 18 list), decided on the scalar value of the character. -/
def regexSpace (c : Char) : Bool :=
  (9 ≤ c.toNat && c.toNat ≤ 13) || c.toNat == 32 || c.toNat == 133 ||
  c.toNat == 160 || c.toNat == 5760 || (8192 ≤ c.toNat && c.toNat ≤ 8202) ||
  c.toNat == 8232 || c.toNat == 8233 || c.toNat == 8239 || c.toNat == 8287 ||
  c.toNat == 12288

/-- Complement class: what the nonspace escape of the regex crate matches. -/
def nonSpace (c : Char) : Bool := !(regexSpace c)

/-- One pass of Rust str lines: split at LF, and when a line was terminated
by an LF strip one trailing CR from it; a final fragment without terminator
is kept as is (no CR stripping), and a trailing terminator contributes no
empty final line.  The accumulator holds the current line reversed. -/
def rustLinesAux : List Char → List Char → List (List Char)
  | acc, [] => if acc.isEmpty then [] else [acc.reverse]
  | acc, '\n' :: rest =>
    (match acc with
     | '\r' :: acc2 => acc2.reverse
     | _ => acc.reverse) :: rustLinesAux [] rest
  | acc, c :: rest => rustLinesAux (c :: acc) rest

/-- Rust str lines over a String. -/
def rustLines (s : String) : List String :=
  (rustLinesAux [] s.toList).map (fun l => String.mk l)

/-- Attempt of the update-line regex at a fixed start position.  In the
pattern, every nonspace+ group except the last is followed immediately by
space+, and every space+ is followed by a nonspace character (a group or the
literal minus), so a backtracking leftmost-first match is forced to take
every run maximal: a nonspace+ can only stop where whitespace starts and a
space+ can only stop where nonspace starts.  The attempt is therefore
deterministic: take the maximal nonspace run (capture 1), a maximal nonempty
whitespace run, the maximal nonspace run (capture 2), a maximal nonempty
whitespace run, the two literal characters, a maximal nonempty whitespace
run, and a nonempty nonspace run (capture 3, greedy and last, so maximal). -/
def matchAt (l : List Char) : Option (List Char × List Char × List Char) :=
  let t1 := l.takeWhile nonSpace
  let r1 := l.dropWhile nonSpace
  let w1 := r1.takeWhile regexSpace
  let r2 := r1.dropWhile regexSpace
  let t2 := r2.takeWhile nonSpace
  let r3 := r2.dropWhile nonSpace
  let w2 := r3.takeWhile regexSpace
  let r4 := r3.dropWhile regexSpace
  if t1.isEmpty || w1.isEmpty || t2.isEmpty || w2.isEmpty then none
  else
    match r4 with
    | '-' :: '>' :: r5 =>
      let w3 := r5.takeWhile regexSpace
      let r6 := r5.dropWhile regexSpace
      let t3 := r6.takeWhile nonSpace
      if w3.isEmpty || t3.isEmpty then none else some (t1, t2, t3)
    | _ => none

/-- First-success choice used by the search loops: keep the earlier match
when there is one, otherwise fall through to the later one. -/
def orFirst {α : Type} : Option α → Option α → Option α
  | some r, _ => some r
  | none, b => b

/-- Leftmost regex search: the attempt runs at every start position from the
left, as the regex engine does, and the first success wins. -/
def findMatch : List Char → Option (List Char × List Char × List Char)
  | [] => none
  | c :: rest => orFirst (matchAt (c :: rest)) (findMatch rest)

/-- RE.captures(line) of response_to_hashmap: the three captured tokens. -/
def captureLine (line : String) : Option (String × String × String) :=
  match findMatch line.toList with
  | some (t1, t2, t3) => some (String.mk t1, String.mk t2, String.mk t3)
  | none => none

/-- Data type for storing package update information (struct PackageUpdate). -/
structure PackageUpdate where
  current_version : String
  new_version : String
deriving DecidableEq

/-- The HashMap of struct UpdateMap, modelled as an association list with at
most one entry per key (the insert below keeps that invariant). -/
abbrev UpdateMap := List (String × PackageUpdate)

/-- HashMap get. -/
def findPkg : UpdateMap → String → Option PackageUpdate
  | [], _ => none
  | (k0, v0) :: rest, k => if k0 = k then some v0 else findPkg rest k

/-- HashMap insert: replaces the value when the key is present. -/
def insertPkg : UpdateMap → String → PackageUpdate → UpdateMap
  | [], k, v => [(k, v)]
  | (k0, v0) :: rest, k, v =>
    if k0 = k then (k, v) :: rest else (k0, v0) :: insertPkg rest k v

/-- Lexicographic order on char lists by scalar value; on UTF-8 strings this
agrees with the bytewise Ord that Rust String comparison uses. -/
def charsLe : List Char → List Char → Bool
  | [], _ => true
  | _ :: _, [] => false
  | a :: as, b :: bs =>
    if a.toNat < b.toNat then true
    else if b.toNat < a.toNat then false
    else charsLe as bs

/-- Rust String less-or-equal. -/
def strLeB (a b : String) : Bool := charsLe a.toList b.toList

/-- Loop body of response_to_hashmap: one captured line (name, current, new)
is merged into the map; when the key exists already the new entry is dropped
if its new_version compares less or equal to the existing one as a raw
string, otherwise the insert replaces the existing entry. -/
def insertStep (m : UpdateMap) (cap : String × String × String) : UpdateMap :=
  match findPkg m cap.1 with
  | some existing =>
    if strLeB cap.2.2 existing.new_version then m
    else insertPkg m cap.1 ⟨cap.2.1, cap.2.2⟩
  | none => insertPkg m cap.1 ⟨cap.2.1, cap.2.2⟩

/-- Parse the response body from an updates report into an UpdateMap:
lines, filter_map through the regex, and fold the merge over the captures. -/
def response_to_hashmap (body : String) : UpdateMap :=
  ((rustLines body).filterMap captureLine).foldl insertStep []

/-- Helper of the installed-package regex capture(nonspace+) minus
lazy(nonspace+) searched within the tail of a nonspace token: the capture
extends to the last minus sign that still has at least one nonspace
character after it inside the token (the greedy group backtracks from the
right and needs one character for the lazy group).  Returns the part of the
tail before that minus sign. -/
def splitTail : List Char → Option (List Char)
  | [] => none
  | c :: cs =>
    match splitTail cs with
    | some nm => some (c :: nm)
    | none => if c == '-' && !cs.isEmpty then some [] else none

/-- Attempt of the installed-package regex at a fixed start position.  The
greedy capture group starts here, so the start character must be nonspace;
the capture, the minus and the one lazy character all lie inside the maximal
nonspace run from the start, and greediness picks the rightmost minus of the
run that is neither its first character (the capture needs one) nor its last
(the lazy group needs one after it). -/
def instMatchAt (l : List Char) : Option (List Char) :=
  match l.takeWhile nonSpace with
  | [] => none
  | c0 :: t2 => (splitTail t2).map (fun nm => c0 :: nm)

/-- Leftmost search of the installed-package regex. -/
def findInst : List Char → Option (List Char)
  | [] => none
  | c :: rest => orFirst (instMatchAt (c :: rest)) (findInst rest)

/-- re.captures(line) of get_installed_packages, keeping capture 1. -/
def installedCapture (line : String) : Option String :=
  (findInst line.toList).map (fun l => String.mk l)

/-- get_installed_packages as a function of the captured stdout of
xbps-query: one extracted name per matching line.  The Rust code collects
the names into a HashSet; the list here models it, membership being what the
program consumes. -/
def get_installed_packages (xq_stdout : String) : List String :=
  (rustLines xq_stdout).filterMap installedCapture

/-- The error type of the HTTP client (reqwest Error), abstract here. -/
structure ReqError where
  msg : String
deriving DecidableEq

/-- A received HTTP response.  reqwest get resolves Ok for every response
actually received regardless of its status code (the code never calls
error_for_status), so the status is carried as plain data; the text field is
the outcome of Response text(), which can fail while reading the body. -/
structure HttpResponse where
  status : Nat
  text : Except ReqError String

/-- get_http_response as a function of the fetch outcome.  The question-mark
operator propagates a connection-level failure as an error value; the result
of text() is unwrapped, so its failure is a panic, modelled by none (the
whole computation aborts rather than produce a value). -/
def get_http_response (fetched : Except ReqError HttpResponse) :
    Option (Except ReqError String) :=
  match fetched with
  | .error e => some (.error e)
  | .ok response =>
    match response.text with
    | .ok t => some (.ok t)
    | .error _ => none

/-- get_maintainer_updates: fetch, propagate the error, parse the body.
The outer Option again models the possible panic inside the fetch. -/
def get_maintainer_updates (fetched : Except ReqError HttpResponse) :
    Option (Except ReqError UpdateMap) :=
  match get_http_response fetched with
  | none => none
  | some (.error e) => some (.error e)
  | some (.ok body) => some (.ok (response_to_hashmap body))

/-- get_all_updates: same pipeline against the all-updates report. -/
def get_all_updates (fetched : Except ReqError HttpResponse) :
    Option (Except ReqError UpdateMap) :=
  match get_http_response fetched with
  | none => none
  | some (.error e) => some (.error e)
  | some (.ok body) => some (.ok (response_to_hashmap body))

/-- Base URL constant of the source. -/
def VOID_URL : String := "https://alpha.de.repo.voidlinux.org/void-updates/void-updates"

/-- Maintainer identity constant of the source. -/
def EMAIL : String := "kartik.ynwa@gmail.com"

/-- URL of the maintainer report, as format! builds it. -/
def maintainerReportUrl : String := VOID_URL ++ "/updates_" ++ EMAIL ++ ".txt"

/-- URL of the all-updates report. -/
def allUpdatesUrl : String := VOID_URL ++ ".txt"

/-- One line of the Display impl of UpdateMap: name, tab, current, arrow,
new. -/
def formatLine (e : String × PackageUpdate) : String :=
  e.1 ++ "\t" ++ e.2.current_version ++ " -> " ++ e.2.new_version

/-- Order used to sort entries by package name, as keys.sort() does. -/
def entryLe (a b : String × PackageUpdate) : Prop := strLeB a.1 b.1 = true

instance decEntryLe : DecidableRel entryLe := fun a b =>
  inferInstanceAs (Decidable (strLeB a.1 b.1 = true))

/-- The entries in the order the Display impl prints them: keys are
collected, sorted, and each looked up; with at most one entry per key that
is the same as sorting the entries by key. -/
def displayEntries (m : UpdateMap) : UpdateMap := List.insertionSort entryLe m

/-- The lines the Display impl of UpdateMap writes, in order. -/
def displayLines (m : UpdateMap) : List String := (displayEntries m).map formatLine

/-- Heading of the maintainer section (the bold blue underline styling of
the colored crate is presentation only and is abstracted away). -/
def maintHeading : String := "Maintainer updates:"

/-- Heading of the installed section, styling abstracted likewise. -/
def instHeading : String := "Updates for installed packages:"

/-- The println calls at the end of main, as the list of output lines: each
section appears only when its map is nonempty; println of the maintainer
Display adds one empty line after it, while the installed Display is printed
with print and adds none. -/
def renderSections (maintainer installed : UpdateMap) : List String :=
  (if maintainer.isEmpty then []
   else maintHeading :: (displayLines maintainer ++ [""])) ++
  (if installed.isEmpty then [] else instHeading :: displayLines installed)

/-- The retain call of main: keep an entry when its package is installed and
is not a key of the maintainer map. -/
def filterRetain (m : UpdateMap) (installed_pkgs : List String)
    (maintainer : UpdateMap) : UpdateMap :=
  m.filter (fun e => installed_pkgs.contains e.1 && !(findPkg maintainer e.1).isSome)

/-- Warning main prints when the maintainer report fetch fails (red styling
abstracted away), naming that report. -/
def warnMaintainer : String := "Could not fetch updates_" ++ EMAIL ++ ".txt"

/-- Warning main prints when the all-updates report fetch fails. -/
def warnAll : String := "Could not fetch void-updates.txt"

/-- main after the join of the two fetch pipelines, as a function of the two
results and of the installed-package set: each failed result is replaced by
an empty map after printing its warning (maintainer first, in source order),
the all-updates map is filtered in place, and the sections are rendered.
The function is total: every input produces an output list, modelling that
this path never aborts and the process exits 0. -/
def runMain (mres ares : Except ReqError UpdateMap)
    (installed_pkgs : List String) : List String :=
  let mPair :=
    match mres with
    | .ok updates => (([] : List String), updates)
    | .error _ => ([warnMaintainer], ([] : UpdateMap))
  let aPair :=
    match ares with
    | .ok updates => (([] : List String), updates)
    | .error _ => ([warnAll], ([] : UpdateMap))
  let maintainer_updates := mPair.2
  let installed_updates := filterRetain aPair.2 installed_pkgs maintainer_updates
  mPair.1 ++ aPair.1 ++ renderSections maintainer_updates installed_updates

/-- A nonempty run of nonspace characters: one token of the line pattern. -/
def tokenRun (t : List Char) : Prop := t ≠ [] ∧ ∀ c ∈ t, regexSpace c = false

/-- A nonempty run of whitespace characters. -/
def spaceRun (w : List Char) : Prop := w ≠ [] ∧ ∀ c ∈ w, regexSpace c = true

/-- The line contains the three-token pattern token whitespace token
whitespace arrow whitespace token, as a substring. -/
def matchesPattern (line : String) : Prop :=
  ∃ pre t1 w1 t2 w2 w3 t3 post,
    line.toList = pre ++ t1 ++ w1 ++ t2 ++ w2 ++ '-' :: '>' :: (w3 ++ t3 ++ post) ∧
    tokenRun t1 ∧ spaceRun w1 ∧ tokenRun t2 ∧ spaceRun w2 ∧ spaceRun w3 ∧ tokenRun t3

/-- The line contains a minus directly followed by a greater sign. -/
def hasArrow : List Char → Bool
  | [] => false
  | c :: rest => (c == '-' && rest.head? == some '>') || hasArrow rest

/-! ## Order lemmas for the string comparison -/

theorem charsLe_total : ∀ a b : List Char, charsLe a b = true ∨ charsLe b a = true
  | [], _ => Or.inl rfl
  | _ :: _, [] => Or.inr rfl
  | x :: xs, y :: ys => by
    rcases Nat.lt_trichotomy x.toNat y.toNat with h | h | h
    · exact Or.inl (by simp [charsLe, h])
    · have hn : ¬ x.toNat < y.toNat := by omega
      have hn2 : ¬ y.toNat < x.toNat := by omega
      rcases charsLe_total xs ys with ih | ih
      · exact Or.inl (by simp [charsLe, hn, hn2, ih])
      · exact Or.inr (by simp [charsLe, hn, hn2, ih])
    · exact Or.inr (by simp [charsLe, h])

theorem charsLe_trans : ∀ a b c : List Char,
    charsLe a b = true → charsLe b c = true → charsLe a c = true
  | [], _, _, _, _ => rfl
  | _ :: _, [], _, hab, _ => by simp [charsLe] at hab
  | _ :: _, _ :: _, [], _, hbc => by simp [charsLe] at hbc
  | x :: xs, y :: ys, z :: zs, hab, hbc => by
    simp only [charsLe] at hab hbc ⊢
    split_ifs at hab hbc ⊢ with h1 h2 h3 h4 h5 h6 <;>
      first
      | rfl
      | omega
      | exact hab
      | exact hbc
      | exact charsLe_trans xs ys zs hab hbc

instance totalEntryLe : IsTotal (String × PackageUpdate) entryLe :=
  ⟨fun a b => charsLe_total a.1.toList b.1.toList⟩

instance transEntryLe : IsTrans (String × PackageUpdate) entryLe :=
  ⟨fun _ _ _ hab hbc => charsLe_trans _ _ _ hab hbc⟩

theorem charsLe_refl : ∀ a : List Char, charsLe a a = true
  | [] => rfl
  | x :: xs => by simp [charsLe, charsLe_refl xs]

theorem charsLe_antisymm : ∀ a b : List Char,
    charsLe a b = true → charsLe b a = true → a = b
  | [], [], _, _ => rfl
  | [], _ :: _, _, hba => by simp [charsLe] at hba
  | _ :: _, [], hab, _ => by simp [charsLe] at hab
  | x :: xs, y :: ys, hab, hba => by
    simp only [charsLe] at hab hba
    by_cases h1 : x.toNat < y.toNat
    · rw [if_neg (by omega), if_pos h1] at hba
      exact absurd hba (by simp)
    · by_cases h2 : y.toNat < x.toNat
      · rw [if_neg h1, if_pos h2] at hab
        exact absurd hab (by simp)
      · rw [if_neg h1, if_neg h2] at hab
        rw [if_neg h2, if_neg h1] at hba
        have hxy : x = y := Char.ext (UInt32.ext (by
          simp only [Char.toNat] at h1 h2
          omega))
        rw [hxy, charsLe_antisymm xs ys hab hba]

theorem strLeB_antisymm {a b : String} (hab : strLeB a b = true)
    (hba : strLeB b a = true) : a = b := by
  have h := charsLe_antisymm a.toList b.toList hab hba
  cases a
  cases b
  exact congrArg String.mk h

theorem findPkg_insertPkg (m : UpdateMap) (k0 k : String) (v : PackageUpdate) :
    findPkg (insertPkg m k0 v) k = if k0 = k then some v else findPkg m k := by
  induction m with
  | nil => simp [insertPkg, findPkg]
  | cons e rest ih =>
    obtain ⟨k1, v1⟩ := e
    by_cases h : k1 = k0
    · subst h
      by_cases h2 : k1 = k <;> simp [insertPkg, findPkg, h2]
    · by_cases h2 : k1 = k
      · subst h2
        have h3 : ¬ k0 = k1 := fun hh => h hh.symm
        simp [insertPkg, findPkg, h, h3]
      · simp [insertPkg, findPkg, h, h2, ih]

/-! ## Claims settled by concrete evaluation of the parser and fetcher -/

/-- Claim C2: when two parsed report lines name the same package, the entry
whose new_version string is lexicographically greater is retained, by raw
string comparison and not semantic version comparison: after foo 1.0 to 2.0
followed by foo 1.0 to 1.5 the retained new_version is 2.0, and after
foo 1.0 to 2.0 followed by foo 1.0 to 10.0 the retained new_version is
still 2.0, because as a raw string 10.0 compares below 2.0. -/
theorem claim2_duplicate_lexicographic :
    response_to_hashmap ("foo 1.0 -> 2.0\nfoo 1.0 -> 1.5")
      = [(("foo"), ⟨("1.0"), ("2.0")⟩)]
  ∧ response_to_hashmap ("foo 1.0 -> 2.0\nfoo 1.0 -> 10.0")
      = [(("foo"), ⟨("1.0"), ("2.0")⟩)]
  ∧ strLeB ("10.0") ("2.0") = true ∧ strLeB ("2.0") ("10.0") = false := by
  refine ⟨by decide, by decide, by decide, by decide⟩

/-- Claim C3, counterexample: after foo 1.0 to 2.0 followed by foo 1.5 to
2.0 (equal new_version strings), the retained entry still carries the
current_version of the first line, 1.0, not the 1.5 of the later line, so
the later line did not replace the existing entry. -/
theorem claim3_counterexample :
    findPkg (response_to_hashmap ("foo 1.0 -> 2.0\nfoo 1.5 -> 2.0")) ("foo")
      = some ⟨("1.0"), ("2.0")⟩
  ∧ (PackageUpdate.mk ("1.0") ("2.0")).current_version ≠ ("1.5") := by
  refine ⟨by decide, by decide⟩

/-- Claim C3 as amended, universally: whenever the map already holds an
entry u for the package named by a later captured line, a line whose
new_version equals u's (the raw strings are equal, hence lexicographically
equal) leaves the whole map unchanged, so the existing entry with its
earlier current_version is retained; more generally any new_version
comparing less-or-equal leaves the map unchanged, and the later line's
entry replaces the existing one exactly in the remaining case, new_version
strictly greater (greater-or-equal and different).  The two concrete report
bodies instantiate the tie and the strictly-greater case end to end through
the parser. -/
theorem claim3_amended_tie_keeps_existing :
    (∀ (m : UpdateMap) (nm cv nv : String) (u : PackageUpdate),
      findPkg m nm = some u →
        (nv = u.new_version → insertStep m (nm, cv, nv) = m)
      ∧ (strLeB nv u.new_version = true → insertStep m (nm, cv, nv) = m)
      ∧ (strLeB u.new_version nv = true → nv ≠ u.new_version →
          findPkg (insertStep m (nm, cv, nv)) nm = some ⟨cv, nv⟩))
  ∧ response_to_hashmap ("foo 1.0 -> 2.0\nfoo 1.5 -> 2.0")
      = [(("foo"), ⟨("1.0"), ("2.0")⟩)]
  ∧ response_to_hashmap ("foo 1.0 -> 2.0\nfoo 1.5 -> 3.0")
      = [(("foo"), ⟨("1.5"), ("3.0")⟩)] := by
  refine ⟨?_, by decide, by decide⟩
  intro m nm cv nv u hfind
  refine ⟨?_, ?_, ?_⟩
  · intro heq
    subst heq
    simp [insertStep, hfind, strLeB, charsLe_refl]
  · intro hle
    simp [insertStep, hfind, hle]
  · intro hge hne
    have hlt : strLeB nv u.new_version = false := by
      cases hc : strLeB nv u.new_version with
      | false => rfl
      | true => exact absurd (strLeB_antisymm hc hge) hne
    simp only [insertStep, hfind, hlt]
    simp [findPkg_insertPkg]

/-- Claim C3 as amended, at concrete inputs: an equal new_version leaves the
map untouched and a strictly greater one replaces the entry, by applying the
universal statement. -/
theorem claim3_witness :
    insertStep [(("foo"), ⟨("1.0"), ("2.0")⟩)] (("foo"), ("1.5"), ("2.0"))
      = [(("foo"), ⟨("1.0"), ("2.0")⟩)]
  ∧ findPkg (insertStep [(("foo"), ⟨("1.0"), ("2.0")⟩)] (("foo"), ("1.5"), ("3.0")))
      ("foo") = some ⟨("1.5"), ("3.0")⟩ :=
  ⟨(claim3_amended_tie_keeps_existing.1 [(("foo"), ⟨("1.0"), ("2.0")⟩)]
      ("foo") ("1.5") ("2.0") ⟨("1.0"), ("2.0")⟩ (by decide)).1 (by decide),
    (claim3_amended_tie_keeps_existing.1 [(("foo"), ⟨("1.0"), ("2.0")⟩)]
      ("foo") ("1.5") ("3.0") ⟨("1.0"), ("2.0")⟩ (by decide)).2.2
      (by decide) (by decide)⟩

/-- Claim C6: for each of the two report fetch pipelines, a failed fetch
makes the reconciler print a warning naming the failed report and substitute
an empty UpdateMap, after which filtering and rendering proceed exactly as
they would on an empty successful result; runMain is a total function, so
this path never aborts and the process still exits normally. -/
theorem claim6_fetch_failure_recovered :
    ∀ (ares : Except ReqError UpdateMap) (m : UpdateMap)
      (inst : List String) (e e2 : ReqError),
      runMain (.error e) ares inst = warnMaintainer :: runMain (.ok []) ares inst
    ∧ runMain (.ok m) (.error e2) inst = warnAll :: runMain (.ok m) (.ok []) inst := by
  intro ares m inst e e2
  exact ⟨by cases ares <;> rfl, rfl⟩

/-- Claim C8, counterexample: when a response is received but reading or
decoding its body as text fails, get_http_response does not return a
transport error value; the unwrap panics, aborting the computation (none in
this embedding), which refutes the claim that a non-text body is surfaced
as a TransportError result. -/
theorem claim8_counterexample_text_failure_panics :
    get_http_response (.ok ⟨200, .error ⟨("body read failure")⟩⟩) = none := rfl

/-- Claim C8 as amended: the fetcher returns the full body as text on
success and returns a TransportError value when the connection cannot be
established or the client surfaces the request as an error; but when the
received body cannot be read or decoded as text, the program panics (a
process abort, none here) instead of returning an error value. -/
theorem claim8_amended_fetcher_contract :
    ∀ (e e2 : ReqError) (st : Nat) (t : String),
      get_http_response (.error e) = some (.error e)
    ∧ get_http_response (.ok ⟨st, .ok t⟩) = some (.ok t)
    ∧ get_http_response (.ok ⟨st, .error e2⟩) = none := by
  intro e e2 st t
  exact ⟨rfl, rfl, rfl⟩

/-- Claim C10: every received HTTP response is returned as Ok with its body
text regardless of the status code (the code never calls error_for_status),
so the body of an error page flows into response_to_hashmap like any other
report text. -/
theorem claim10_status_not_inspected :
    ∀ (st : Nat) (body : String),
      get_http_response (.ok ⟨st, .ok body⟩) = some (.ok body)
    ∧ get_maintainer_updates (.ok ⟨st, .ok body⟩)
        = some (.ok (response_to_hashmap body))
    ∧ get_all_updates (.ok ⟨st, .ok body⟩)
        = some (.ok (response_to_hashmap body)) := by
  intro st body
  exact ⟨rfl, rfl, rfl⟩

/-- Claim C4: after reconciliation an entry of the all-updates map is
retained exactly when its package name is in the installed set and is not a
key of the maintainer map; on maintainer A, all-updates A B C, installed B,
the retained map is just B and the rendered installed section lists only B,
with A excluded as maintainer-owned and C excluded as not installed. -/
theorem claim4_filter_installed_not_maintainer :
    (∀ (a maint : UpdateMap) (inst : List String) (k : String) (u : PackageUpdate),
      (k, u) ∈ filterRetain a inst maint ↔
        ((k, u) ∈ a ∧ k ∈ inst ∧ findPkg maint k = none))
  ∧ filterRetain
      [(("A"), ⟨("1"), ("2")⟩), (("B"), ⟨("3"), ("4")⟩), (("C"), ⟨("5"), ("6")⟩)]
      [("B")] [(("A"), ⟨("1"), ("2")⟩)]
      = [(("B"), ⟨("3"), ("4")⟩)]
  ∧ renderSections [(("A"), ⟨("1"), ("2")⟩)]
      (filterRetain
        [(("A"), ⟨("1"), ("2")⟩), (("B"), ⟨("3"), ("4")⟩), (("C"), ⟨("5"), ("6")⟩)]
        [("B")] [(("A"), ⟨("1"), ("2")⟩)])
      = [maintHeading, ("A\t1 -> 2"), (""), instHeading, ("B\t3 -> 4")] := by
  refine ⟨?_, by decide, by decide⟩
  intro a maint inst k u
  simp [filterRetain, List.mem_filter, List.elem_iff, Option.not_isSome_iff_eq_none,
    and_assoc]

/-! ## Rendering lemmas -/

theorem tab_mem_formatLine (e : String × PackageUpdate) : '\t' ∈ (formatLine e).toList := by
  simp [formatLine, String.toList, String.data_append]

theorem mem_displayLines_tab {s : String} {m : UpdateMap} (h : s ∈ displayLines m) :
    '\t' ∈ s.toList := by
  rcases List.mem_map.mp h with ⟨e, _, rfl⟩
  exact tab_mem_formatLine e

theorem maintHeading_notin_displayLines (m : UpdateMap) :
    maintHeading ∉ displayLines m := by
  intro h
  have := mem_displayLines_tab h
  revert this
  decide

theorem instHeading_notin_displayLines (m : UpdateMap) :
    instHeading ∉ displayLines m := by
  intro h
  have := mem_displayLines_tab h
  revert this
  decide

theorem maintHeading_mem_iff (m i : UpdateMap) :
    maintHeading ∈ renderSections m i ↔ m ≠ [] := by
  constructor
  · intro h hm
    subst hm
    by_cases hi : i.isEmpty
    · simp [renderSections, hi] at h
    · simp [renderSections, hi] at h
      rcases h with h | h
      · revert h; decide
      · exact maintHeading_notin_displayLines i h
  · intro hm
    have : m.isEmpty = false := by
      cases m
      · exact absurd rfl hm
      · rfl
    simp [renderSections, this]

theorem instHeading_mem_iff (m i : UpdateMap) :
    instHeading ∈ renderSections m i ↔ i ≠ [] := by
  constructor
  · intro h hi
    subst hi
    by_cases hm : m.isEmpty
    · simp [renderSections, hm] at h
    · simp [renderSections, hm] at h
      rcases h with h | h | h
      · revert h; decide
      · exact instHeading_notin_displayLines m h
      · revert h; decide
  · intro hi
    have : i.isEmpty = false := by
      cases i
      · exact absurd rfl hi
      · rfl
    simp [renderSections, this]

/-- Claim C5: rendering an UpdateMap prints one line per entry of the form
name, tab, current, arrow, new (a permutation of the formatted entries, so
exactly one line each), in order sorted by package name; a section heading
appears in the output exactly when its map is nonempty, and with both maps
empty nothing is printed at all. -/
theorem claim5_render_sorted_lines_and_headings :
    ∀ (m i : UpdateMap),
      (displayLines m).Perm (m.map formatLine)
    ∧ List.Sorted entryLe (displayEntries m)
    ∧ (maintHeading ∈ renderSections m i ↔ m ≠ [])
    ∧ (instHeading ∈ renderSections m i ↔ i ≠ [])
    ∧ renderSections [] [] = [] := by
  intro m i
  exact ⟨(List.perm_insertionSort entryLe m).map formatLine,
    List.sorted_insertionSort entryLe m,
    maintHeading_mem_iff m i, instHeading_mem_iff m i, rfl⟩

/-- Claim C5, instances at concrete maps: the heading appears for a
nonempty map, and empty maps print nothing. -/
theorem claim5_witness :
    maintHeading ∈ renderSections [(("A"), ⟨("1"), ("2")⟩)] []
  ∧ renderSections [] [] = [] :=
  ⟨((claim5_render_sorted_lines_and_headings [(("A"), ⟨("1"), ("2")⟩)] []).2.2.1).mpr
      (by decide),
    (claim5_render_sorted_lines_and_headings [] []).2.2.2.2⟩

/-- Claim C9: the filtering step touches only the all-updates map; the
maintainer map reaches the renderer unchanged (the output is literally the
sections of the unfiltered maintainer map next to the filtered all-updates
map), so every maintainer entry is rendered whatever the installed set is. -/
theorem claim9_maintainer_section_unfiltered :
    ∀ (m a : UpdateMap) (inst : List String),
      runMain (.ok m) (.ok a) inst = renderSections m (filterRetain a inst m)
    ∧ ∀ e ∈ m, formatLine e ∈ runMain (.ok m) (.ok a) inst := by
  intro m a inst
  constructor
  · rfl
  · intro e he
    have hm : m.isEmpty = false := by
      cases m
      · exact absurd he (List.not_mem_nil e)
      · rfl
    have h1 : formatLine e ∈ displayLines m :=
      List.mem_map_of_mem formatLine (((List.perm_insertionSort entryLe m).mem_iff).mpr he)
    show formatLine e ∈ renderSections m (filterRetain a inst m)
    simp [renderSections, hm, h1]

/-- Claim C9, instance at a concrete input: the one maintainer entry is
rendered although its package is not in the (empty) installed set. -/
theorem claim9_witness :
    formatLine (("A"), ⟨("1"), ("2")⟩)
      ∈ runMain (.ok [(("A"), ⟨("1"), ("2")⟩)]) (.ok []) [] :=
  (claim9_maintainer_section_unfiltered [(("A"), ⟨("1"), ("2")⟩)] [] []).2 _ (by decide)

/-! ## Parser soundness lemmas -/

theorem nonSpace_eq_true {c : Char} (h : nonSpace c = true) : regexSpace c = false := by
  simpa [nonSpace] using h

theorem tokenRun_takeWhile {l t : List Char} (hne : t ≠ [])
    (ht : t = l.takeWhile nonSpace) : tokenRun t :=
  ⟨hne, fun _c hc => nonSpace_eq_true (List.mem_takeWhile_imp (ht ▸ hc))⟩

theorem spaceRun_takeWhile {l w : List Char} (hne : w ≠ [])
    (hw : w = l.takeWhile regexSpace) : spaceRun w :=
  ⟨hne, fun _c hc => List.mem_takeWhile_imp (hw ▸ hc)⟩

theorem matchAt_sound {l t1 t2 t3 : List Char} (h : matchAt l = some (t1, t2, t3)) :
    ∃ w1 w2 w3 rest,
      l = t1 ++ w1 ++ (t2 ++ w2 ++ '-' :: '>' :: (w3 ++ t3 ++ rest))
    ∧ tokenRun t1 ∧ spaceRun w1 ∧ tokenRun t2 ∧ spaceRun w2 ∧ spaceRun w3 ∧ tokenRun t3 := by
  simp only [matchAt] at h
  split at h
  · exact absurd h (by simp)
  · next hcond =>
    split at h
    · next r5 heq =>
      split at h
      · exact absurd h (by simp)
      · next hcond2 =>
        injection h with h
        injection h with h1 h
        injection h with h2 h3
        subst h1
        subst h2
        subst h3
        simp only [Bool.or_eq_true, not_or, Bool.not_eq_true, List.isEmpty_eq_false]
          at hcond hcond2
        obtain ⟨⟨⟨hn1, hn2⟩, hn3⟩, hn4⟩ := hcond
        obtain ⟨hn5, hn6⟩ := hcond2
        refine ⟨(l.dropWhile nonSpace).takeWhile regexSpace,
          (((l.dropWhile nonSpace).dropWhile regexSpace).dropWhile nonSpace).takeWhile
            regexSpace,
          r5.takeWhile regexSpace,
          (r5.dropWhile regexSpace).dropWhile nonSpace, ?_, ?_, ?_, ?_, ?_, ?_, ?_⟩
        · conv_lhs => rw [← List.takeWhile_append_dropWhile nonSpace l,
            ← List.takeWhile_append_dropWhile regexSpace (List.dropWhile nonSpace l),
            ← List.takeWhile_append_dropWhile nonSpace
              ((List.dropWhile nonSpace l).dropWhile regexSpace),
            ← List.takeWhile_append_dropWhile regexSpace
              (((List.dropWhile nonSpace l).dropWhile regexSpace).dropWhile nonSpace)]
          rw [heq]
          conv_lhs => rw [← List.takeWhile_append_dropWhile regexSpace r5,
            ← List.takeWhile_append_dropWhile nonSpace (List.dropWhile regexSpace r5)]
          simp [List.append_assoc]
        · exact tokenRun_takeWhile hn1 rfl
        · exact spaceRun_takeWhile hn2 rfl
        · exact tokenRun_takeWhile hn3 rfl
        · exact spaceRun_takeWhile hn4 rfl
        · exact spaceRun_takeWhile hn5 rfl
        · exact tokenRun_takeWhile hn6 rfl
    · exact absurd h (by simp)

theorem findMatch_sound {l t1 t2 t3 : List Char} (h : findMatch l = some (t1, t2, t3)) :
    ∃ pre w1 w2 w3 rest,
      l = pre ++ (t1 ++ w1 ++ (t2 ++ w2 ++ '-' :: '>' :: (w3 ++ t3 ++ rest)))
    ∧ tokenRun t1 ∧ spaceRun w1 ∧ tokenRun t2 ∧ spaceRun w2 ∧ spaceRun w3 ∧ tokenRun t3 := by
  induction l with
  | nil => exact absurd h (by simp [findMatch])
  | cons c cs ih =>
    rw [findMatch] at h
    cases hm : matchAt (c :: cs) with
    | some r =>
      rw [hm] at h
      simp only [orFirst] at h
      obtain rfl : r = (t1, t2, t3) := Option.some.inj h
      obtain ⟨w1, w2, w3, rest, e, p1, p2, p3, p4, p5, p6⟩ := matchAt_sound hm
      exact ⟨[], w1, w2, w3, rest, by simpa using e, p1, p2, p3, p4, p5, p6⟩
    | none =>
      rw [hm] at h
      simp only [orFirst] at h
      obtain ⟨pre, w1, w2, w3, rest, e, p1, p2, p3, p4, p5, p6⟩ := ih h
      exact ⟨c :: pre, w1, w2, w3, rest, by simp [e], p1, p2, p3, p4, p5, p6⟩

theorem captureLine_matches {line n c v : String}
    (h : captureLine line = some (n, c, v)) : matchesPattern line := by
  unfold captureLine at h
  split at h
  · next a b d heq =>
    obtain ⟨pre, w1, w2, w3, rest, e, p1, p2, p3, p4, p5, p6⟩ := findMatch_sound heq
    exact ⟨pre, a, w1, b, w2, w3, d, rest,
      by rw [e]; simp [List.append_assoc], p1, p2, p3, p4, p5, p6⟩
  · exact absurd h (by simp)

theorem hasArrow_append (p q : List Char) : hasArrow (p ++ '-' :: '>' :: q) = true := by
  induction p with
  | nil => simp [hasArrow]
  | cons c cs ih => simp [hasArrow, ih]

theorem captureLine_hasArrow {line : String} {x : String × String × String}
    (h : captureLine line = some x) : hasArrow line.toList = true := by
  obtain ⟨n, c, v⟩ := x
  obtain ⟨pre, t1, w1, t2, w2, w3, t3, post, e, props⟩ := captureLine_matches h
  rw [e]
  have e2 : pre ++ t1 ++ w1 ++ t2 ++ w2 ++ '-' :: '>' :: (w3 ++ t3 ++ post)
      = (pre ++ t1 ++ w1 ++ t2 ++ w2) ++ '-' :: '>' :: (w3 ++ t3 ++ post) := by
    simp [List.append_assoc]
  rw [e2]
  exact hasArrow_append _ _


theorem insertStep_find {m : UpdateMap} {cap : String × String × String}
    {k : String} {u : PackageUpdate}
    (h : findPkg (insertStep m cap) k = some u) :
    findPkg m k = some u ∨ cap = (k, u.current_version, u.new_version) := by
  obtain ⟨nm, cv, nv⟩ := cap
  unfold insertStep at h
  split at h
  · split at h
    · exact Or.inl h
    · rw [findPkg_insertPkg] at h
      by_cases hk : nm = k
      · obtain rfl : u = ⟨cv, nv⟩ := (Option.some.inj (by simpa [hk] using h)).symm
        exact Or.inr (by rw [hk])
      · exact Or.inl (by simpa [hk] using h)
  · rw [findPkg_insertPkg] at h
    by_cases hk : nm = k
    · obtain rfl : u = ⟨cv, nv⟩ := (Option.some.inj (by simpa [hk] using h)).symm
      exact Or.inr (by rw [hk])
    · exact Or.inl (by simpa [hk] using h)

theorem foldl_insertStep_find :
    ∀ (caps : List (String × String × String)) (m : UpdateMap)
      (k : String) (u : PackageUpdate),
      findPkg (caps.foldl insertStep m) k = some u →
      findPkg m k = some u ∨ (k, u.current_version, u.new_version) ∈ caps
  | [], _, _, _, h => Or.inl h
  | cap :: caps, m, k, u, h => by
    rcases foldl_insertStep_find caps (insertStep m cap) k u h with h2 | h2
    · rcases insertStep_find h2 with h3 | h3
      · exact Or.inl h3
      · exact Or.inr (by rw [← h3]; exact List.mem_cons_self _ _)
    · exact Or.inr (List.mem_cons_of_mem _ h2)

/-- Claim C1: the report parser is total and sound.  Parsing is a total
function into a map (so it never fails, and a body none of whose lines
capture yields the empty map); every retained entry comes from some input
line on which the three-token regex captured exactly that data, and such a
line contains the three-token pattern, in particular the arrow; dually a
line with no arrow substring never captures, hence never produces an
entry. -/
theorem claim1_parser_total_and_sound :
    ∀ body : String,
      (∀ k u, findPkg (response_to_hashmap body) k = some u →
        ∃ line, line ∈ rustLines body ∧
          captureLine line = some (k, u.current_version, u.new_version) ∧
          matchesPattern line ∧ hasArrow line.toList = true)
    ∧ (∀ line : String, hasArrow line.toList = false → captureLine line = none)
    ∧ ((∀ line ∈ rustLines body, captureLine line = none) →
        response_to_hashmap body = []) := by
  intro body
  refine ⟨?_, ?_, ?_⟩
  · intro k u h
    unfold response_to_hashmap at h
    rcases foldl_insertStep_find _ _ _ _ h with h2 | h2
    · simp [findPkg] at h2
    · rcases List.mem_filterMap.mp h2 with ⟨line, hline, hcap⟩
      exact ⟨line, hline, hcap, captureLine_matches hcap, captureLine_hasArrow hcap⟩
  · intro line hfalse
    cases hc : captureLine line with
    | none => rfl
    | some x =>
      have htrue := captureLine_hasArrow hc
      rw [hfalse] at htrue
      exact absurd htrue (by simp)
  · intro hall
    unfold response_to_hashmap
    rw [List.filterMap_eq_nil_iff.mpr hall]
    rfl

/-- Claim C1 at concrete inputs: a real report line is captured and is an
entry, a header line yields nothing, and an arrowless body parses to the
empty map. -/
theorem claim1_witness :
    (∃ line, line ∈ rustLines ("python-mock  3.0.5 -> 4.0.3    https://x\nheader") ∧
      captureLine line = some (("python-mock"), ("3.0.5"), ("4.0.3")) ∧
      matchesPattern line ∧ hasArrow line.toList = true)
  ∧ captureLine ("header line") = none
  ∧ response_to_hashmap ("no arrows here") = [] :=
  ⟨(claim1_parser_total_and_sound (("python-mock  3.0.5 -> 4.0.3    https://x\nheader"))).1
      (("python-mock")) ⟨("3.0.5"), ("4.0.3")⟩ (by decide),
    (claim1_parser_total_and_sound ("")).2.1 (("header line")) (by decide),
    (claim1_parser_total_and_sound (("no arrows here"))).2.2 (by decide)⟩

/-! ## Installed-package extraction lemmas -/

theorem regexSpace_false_nonSpace {c : Char} (h : regexSpace c = false) :
    nonSpace c = true := by
  simp [nonSpace, h]

theorem splitTail_mem : ∀ {cs nm : List Char}, splitTail cs = some nm → ('-') ∈ cs := by
  intro cs
  induction cs with
  | nil => intro nm h; exact absurd h (by simp [splitTail])
  | cons c cs ih =>
    intro nm h
    rw [splitTail] at h
    split at h
    · next nm2 heq => exact List.mem_cons_of_mem c (ih heq)
    · split at h
      · next hcond =>
        have hc : c = '-' := by
          have := (Bool.and_eq_true _ _).mp hcond |>.1
          simpa using this
        exact hc ▸ List.mem_cons_self c cs
      · exact absurd h (by simp)

theorem takeWhile_mem_of_mem {l : List Char} {c : Char} (p : Char → Bool)
    (h : c ∈ l.takeWhile p) : c ∈ l := (List.takeWhile_sublist p).subset h

theorem instMatchAt_mem {l nm : List Char} (h : instMatchAt l = some nm) :
    ('-') ∈ l := by
  unfold instMatchAt at h
  split at h
  · exact absurd h (by simp)
  · next c0 t2 heq =>
    rcases Option.map_eq_some'.mp h with ⟨nm2, hs, _⟩
    have h2 : ('-') ∈ l.takeWhile nonSpace := by
      rw [heq]
      exact List.mem_cons_of_mem c0 (splitTail_mem hs)
    exact takeWhile_mem_of_mem nonSpace h2

theorem findInst_mem : ∀ {l nm : List Char}, findInst l = some nm → ('-') ∈ l := by
  intro l
  induction l with
  | nil => intro nm h; exact absurd h (by simp [findInst])
  | cons c cs ih =>
    intro nm h
    rw [findInst] at h
    cases hm : instMatchAt (c :: cs) with
    | some r => exact instMatchAt_mem hm
    | none =>
      rw [hm] at h
      simp only [orFirst] at h
      exact List.mem_cons_of_mem c (ih h)

theorem splitTail_eq_take : ∀ (cs : List Char) (j : Nat),
    cs.get? j = some ('-') → j + 1 < cs.length →
    (∀ i, j < i → cs.get? i ≠ some ('-')) →
    splitTail cs = some (cs.take j)
  | [], j, hj, _, _ => by simp at hj
  | c :: cs, 0, hj, hlen, hafter => by
    have hc : c = '-' := by simpa using hj
    have hne : cs ≠ [] := by
      intro hh
      subst hh
      simp at hlen
    have hnone : splitTail cs = none := by
      cases hs : splitTail cs with
      | none => rfl
      | some nm =>
        obtain ⟨i, hi⟩ := List.mem_iff_get?.mp (splitTail_mem hs)
        exact absurd (show ((c :: cs).get? (i + 1)) = some ('-') by simpa using hi)
          (hafter (i + 1) (by omega))
    simp [splitTail, hnone, hc, hne]
  | c :: cs, j + 1, hj, hlen, hafter => by
    have hj2 : cs.get? j = some ('-') := by simpa using hj
    have hlen2 : j + 1 < cs.length := by
      simp only [List.length_cons] at hlen
      omega
    have hafter2 : ∀ i, j < i → cs.get? i ≠ some ('-') := by
      intro i hi
      have := hafter (i + 1) (by omega)
      simpa using this
    have hrec := splitTail_eq_take cs j hj2 hlen2 hafter2
    simp [splitTail, hrec]

theorem takeWhile_append_all {t rest : List Char}
    (ht : ∀ c ∈ t, nonSpace c = true)
    (hrest : rest = [] ∨ ∃ c rest2, rest = c :: rest2 ∧ nonSpace c = false) :
    (t ++ rest).takeWhile nonSpace = t := by
  induction t with
  | nil =>
    rcases hrest with rfl | ⟨c, rest2, rfl, hc⟩
    · rfl
    · simp [List.takeWhile_cons, hc]
  | cons a t ih =>
    have ha := ht a (List.mem_cons_self a t)
    have ih2 := ih (fun c hc => ht c (List.mem_cons_of_mem a hc))
    simp [List.takeWhile_cons, ha, ih2]

/-- Claim C7: the installed-package lister takes the leading nonspace token
of a line and splits it at its final hyphen, keeping the name part: the line
python3-3.11.4_1 yields python3; a line containing no hyphen at all yields
no match and contributes nothing; and in general, for a line whose leading
token ends at whitespace or at the end of the line, if the last hyphen of
that token is at position j, interior to the token (not its first or last
character, so a name part and a version part both exist), the extracted
name is the part of the token before that hyphen. -/
theorem claim7_installed_extraction :
    installedCapture ("python3-3.11.4_1") = some ("python3")
  ∧ (∀ line : String, ('-') ∉ line.toList → installedCapture line = none)
  ∧ (∀ (line : String) (t rest : List Char) (j : Nat),
      line.toList = t ++ rest →
      (∀ c ∈ t, regexSpace c = false) →
      (rest = [] ∨ ∃ c rest2, rest = c :: rest2 ∧ regexSpace c = true) →
      t.get? j = some ('-') →
      1 ≤ j → j + 1 < t.length →
      (∀ i ∈ List.range t.length, j < i → t.get? i ≠ some ('-')) →
      installedCapture line = some (String.mk (t.take j))) := by
  refine ⟨by decide, ?_, ?_⟩
  · intro line h
    cases hf : findInst line.toList with
    | none =>
      simp [installedCapture]
      exact hf
    | some nm => exact absurd (findInst_mem hf) h
  · intro line t rest j hline ht hrest hj hj1 hjlen hafter
    obtain ⟨jj, rfl⟩ : ∃ jj, j = jj + 1 := ⟨j - 1, by omega⟩
    cases t with
    | nil => simp at hj
    | cons c0 t2 =>
      have ht2 : ∀ c ∈ t2, nonSpace c = true := fun c hc =>
        regexSpace_false_nonSpace (ht c (List.mem_cons_of_mem c0 hc))
      have hrest2 : rest = [] ∨ ∃ c rest2, rest = c :: rest2 ∧ nonSpace c = false := by
        rcases hrest with rfl | ⟨c, rest2, rfl, hc⟩
        · exact Or.inl rfl
        · exact Or.inr ⟨c, rest2, rfl, by simp [nonSpace, hc]⟩
      have htw : ((c0 :: t2) ++ rest).takeWhile nonSpace = c0 :: t2 :=
        takeWhile_append_all
          (fun c hc => regexSpace_false_nonSpace (ht c hc)) hrest2
      have hj2 : t2.get? jj = some ('-') := by simpa using hj
      have hlen2 : jj + 1 < t2.length := by
        simp only [List.length_cons] at hjlen
        omega
      have hafter2 : ∀ i, jj < i → t2.get? i ≠ some ('-') := by
        intro i hi
        by_cases hil : i < t2.length
        · have := hafter (i + 1) (by
            simp only [List.mem_range, List.length_cons]
            omega) (by omega)
          simpa using this
        · rw [List.get?_eq_none.mpr (by omega)]
          simp
      have hsplit := splitTail_eq_take t2 jj hj2 hlen2 hafter2
      unfold installedCapture
      rw [hline, List.cons_append, findInst]
      have him : instMatchAt (c0 :: (t2 ++ rest)) = some (c0 :: t2.take jj) := by
        unfold instMatchAt
        rw [show (c0 :: (t2 ++ rest)).takeWhile nonSpace = c0 :: t2 from
          by rw [← List.cons_append]; exact htw]
        simp [hsplit]
      rw [him]
      simp [orFirst]

/-- Claim C7 at concrete inputs: a hyphenless line contributes nothing, and
a token with two hyphens splits at the last one. -/
theorem claim7_witness :
    installedCapture ("nohyphen") = none
  ∧ installedCapture ("ab-cd-1.0 x") = some ("ab-cd") := by
  constructor
  · exact claim7_installed_extraction.2.1 ("nohyphen") (by decide)
  · have := claim7_installed_extraction.2.2 ("ab-cd-1.0 x") (("ab-cd-1.0").toList) ((" x").toList) 5
      (by decide) (by decide)
      (Or.inr ⟨' ', (("x").toList), by decide, by decide⟩)
      (by decide) (by decide) (by decide) (by decide)
    rw [this]
    decide
